import Mathlib

/-!
Verification of the IRH v22 numerical core (quaternion algebra, QNCD metric,
symplectic action functional, cancellation check, harmony functional) against
its natural-language specification.

The Python source (`src/python/src/irh/core/v22/`) works with IEEE doubles;
we embed the arithmetic over `ℝ`.  Fallible operations (`Quaternion.inverse`,
`Quaternion.normalize`, which raise `ZeroDivisionError` on the zero
quaternion) are embedded as `Option`-valued functions.  The transparency /
audit-logging collaborator is purely observational (it appends to a log
buffer and its value is never consumed by the numerical code), so it is
omitted from the embedding.
-/

namespace IRH

open scoped Classical

noncomputable section

/-- Quaternion record from `quaternion.py`: 4 real components `w x y z`. -/
structure Quaternion where
  w : ℝ
  x : ℝ
  y : ℝ
  z : ℝ

namespace Quaternion

/-- Hamilton product, `Quaternion.__mul__`. -/
def mul (q1 q2 : Quaternion) : Quaternion :=
  ⟨q1.w * q2.w - q1.x * q2.x - q1.y * q2.y - q1.z * q2.z,
   q1.w * q2.x + q1.x * q2.w + q1.y * q2.z - q1.z * q2.y,
   q1.w * q2.y - q1.x * q2.z + q1.y * q2.w + q1.z * q2.x,
   q1.w * q2.z + q1.x * q2.y - q1.y * q2.x + q1.z * q2.w⟩

/-- Componentwise addition, `Quaternion.__add__`. -/
def add (q1 q2 : Quaternion) : Quaternion :=
  ⟨q1.w + q2.w, q1.x + q2.x, q1.y + q2.y, q1.z + q2.z⟩

/-- Componentwise subtraction, `Quaternion.__sub__`. -/
def sub (q1 q2 : Quaternion) : Quaternion :=
  ⟨q1.w - q2.w, q1.x - q2.x, q1.y - q2.y, q1.z - q2.z⟩

/-- Conjugation, `Quaternion.conjugate`: negate the vector part. -/
def conjugate (q : Quaternion) : Quaternion :=
  ⟨q.w, -q.x, -q.y, -q.z⟩

/-- Squared norm, `Quaternion.norm_sq`: `w**2 + x**2 + y**2 + z**2`. -/
def norm_sq (q : Quaternion) : ℝ :=
  q.w ^ 2 + q.x ^ 2 + q.y ^ 2 + q.z ^ 2

/-- Norm, `Quaternion.norm`: `sqrt(norm_sq)`. -/
def norm (q : Quaternion) : ℝ :=
  Real.sqrt q.norm_sq

/-- Inverse, `Quaternion.inverse`: raises `ZeroDivisionError` when `norm_sq == 0`,
embedded as `none`. -/
def inverse (q : Quaternion) : Option Quaternion :=
  if q.norm_sq = 0 then none
  else some ⟨q.w / q.norm_sq, -q.x / q.norm_sq, -q.y / q.norm_sq, -q.z / q.norm_sq⟩

/-- Normalization, `Quaternion.normalize`: raises `ZeroDivisionError` when `norm == 0`,
embedded as `none`. -/
def normalize (q : Quaternion) : Option Quaternion :=
  if q.norm = 0 then none
  else some ⟨q.w / q.norm, q.x / q.norm, q.y / q.norm, q.z / q.norm⟩

/-- Componentwise negation `-q` (used to state the antipodal-equivalence
property `QNCD(q, -q) = 0`; the 4-vector antipode of `q`). -/
def neg (q : Quaternion) : Quaternion :=
  ⟨-q.w, -q.x, -q.y, -q.z⟩

/-- Euclidean dot product of the two quaternions seen as 4-vectors in `ℝ⁴`,
as computed inside `compute_qncd`. -/
def dot (q1 q2 : Quaternion) : ℝ :=
  q1.w * q2.w + q1.x * q2.x + q1.y * q2.y + q1.z * q2.z

end Quaternion

/-- Clamp `np.clip(v, lo, hi)`, i.e. `min hi (max lo v)`. -/
def npclip (v lo hi : ℝ) : ℝ :=
  min hi (max lo v)

/-- QNCD distance `compute_qncd` from `qncd.py`: normalize both arguments (returning the
maximal distance `1.0` when either normalization raises on a zero
quaternion), then `clip(1 - dot², 0, 1)`. -/
def compute_qncd (q1 q2 : Quaternion) : ℝ :=
  match q1.normalize, q2.normalize with
  | some u1, some u2 => npclip (1 - (Quaternion.dot u1 u2) ^ 2) 0 1
  | _, _ => 1

/-- Manifold element `GInfElement` from `cymatics.py`: an SU(2) quaternion paired with a U(1)
phase. -/
structure GInfElement where
  su2 : Quaternion
  phase : ℝ

/-- Node record `ResonantNode` from `cymatics.py`. -/
structure ResonantNode where
  id : ℤ
  state : GInfElement
  frequency : ℝ

/-- Python float modulo `x % y`: `x - y * ⌊x / y⌋` (for `y > 0` the result
lies in `[0, y)`, matching Python's sign-of-divisor convention). -/
def pymod (x y : ℝ) : ℝ :=
  x - y * (⌊x / y⌋ : ℤ)

/-- Phase update `ResonantNode.update_phase`: `state.phase ← (phase + frequency·dt) % 2π`,
everything else untouched.  The in-place mutation is embedded as a function
returning the updated node. -/
def ResonantNode.update_phase (n : ResonantNode) (dt : ℝ) : ResonantNode :=
  { n with state := { n.state with
      phase := pymod (n.state.phase + n.frequency * dt) (2 * Real.pi) } }

/-- Action evaluator `SymplecticAction` from `action.py`: a stateless record holding the two
coupling constants (the transparency engine it also holds is observational
logging only). -/
structure SymplecticAction where
  lambda_coupling : ℝ
  gamma_coupling : ℝ

/-- Default `GInfElement` used as `List.getD` fallback; the sums below only
index inside the list, so it is never reached. -/
def defaultG : GInfElement := ⟨⟨0, 0, 0, 0⟩, 0⟩

namespace SymplecticAction

/-- Kinetic term `SymplecticAction.compute_kinetic_term`:
`total = Σᵢ (m²·‖φᵢ‖² + Σⱼ (if Lᵢⱼ ≠ 0 then Lᵢⱼ·(φ̄ᵢ·φⱼ).w else 0))`
with `m² = 1`, where `L` is indexed over `range n × range n`,
`n = field.length`.  The `Lᵢⱼ ≠ 0` test mirrors the source's sparse skip. -/
def compute_kinetic_term (_act : SymplecticAction) (field : List GInfElement)
    (laplacian_matrix : ℕ → ℕ → ℝ) : ℝ :=
  let m_sq : ℝ := 1
  let n := field.length
  ∑ i ∈ Finset.range n,
    (m_sq * (field.getD i defaultG).su2.norm_sq +
      ∑ j ∈ Finset.range n,
        if laplacian_matrix i j ≠ 0 then
          laplacian_matrix i j *
            (((field.getD i defaultG).su2.conjugate).mul
              (field.getD j defaultG).su2).w
        else 0)

/-- Interaction term `SymplecticAction.compute_interaction_term`:
`phi_sq_sum = Σ_{element} ‖element.su2‖²·‖element.su2‖²` accumulated by the
source's loop, then scaled by `lambda_coupling`.  The `adjacency_matrix`
argument is accepted but never read (as in the source). -/
def compute_interaction_term (act : SymplecticAction) (field : List GInfElement)
    (_adjacency_matrix : ℕ → ℕ → ℝ) : ℝ :=
  let phi_sq_sum :=
    field.foldl (fun acc e => acc + e.su2.norm_sq * e.su2.norm_sq) 0
  act.lambda_coupling * phi_sq_sum

/-- Four-point kernel `SymplecticAction.evaluate_kernel`:
`K = exp(i·(φ₁+φ₂+φ₃−φ₄)) · exp(−γ·qncd_sum)` where `qncd_sum` is the
source's double loop `for i in range(4): for j in range(i+1, 4)` over
`gs = [g1, g2, g3, g4]`, unrolled here to its six iterations in loop
order. -/
def evaluate_kernel (act : SymplecticAction) (g1 g2 g3 g4 : GInfElement) : ℂ :=
  let total_phase : ℝ := g1.phase + g2.phase + g3.phase - g4.phase
  let phase_factor : ℂ := Complex.exp (Complex.I * (total_phase : ℂ))
  let qncd_sum : ℝ :=
    compute_qncd g1.su2 g2.su2 + compute_qncd g1.su2 g3.su2 +
    compute_qncd g1.su2 g4.su2 + compute_qncd g2.su2 g3.su2 +
    compute_qncd g2.su2 g4.su2 + compute_qncd g3.su2 g4.su2
  let weight_factor : ℝ := Real.exp (-act.gamma_coupling * qncd_sum)
  phase_factor * (weight_factor : ℂ)

/-- Total action `SymplecticAction.compute_total_action`: kinetic term plus interaction
term, the latter fed the all-zeros placeholder adjacency `np.zeros_like`. -/
def compute_total_action (act : SymplecticAction) (field : List GInfElement)
    (laplacian : ℕ → ℕ → ℝ) : ℝ :=
  act.compute_kinetic_term field laplacian +
    act.compute_interaction_term field (fun _ _ => 0)

end SymplecticAction

/-- IEEE-double value as produced by the harmony functional's arithmetic:
a finite real, `+inf`, `-inf`, or `nan`.  Only the special-value algebra the
source exercises (finite scalar times a possibly infinite value, finite
minus a possibly infinite value) is modelled; on these operations IEEE 754
semantics is exact, no rounding is involved. -/
inductive FloatVal where
  | fin : ℝ → FloatVal
  | inf : FloatVal
  | ninf : FloatVal
  | nan : FloatVal

namespace FloatVal

/-- IEEE multiplication of a finite real scalar `c` by a `FloatVal`:
`c · (±inf)` is `±inf` for `c > 0`, `∓inf` for `c < 0`, and `nan` for
`c = 0`; anything times `nan` is `nan`. -/
def smul (c : ℝ) : FloatVal → FloatVal
  | fin v => fin (c * v)
  | inf => if 0 < c then inf else if c < 0 then ninf else nan
  | ninf => if 0 < c then ninf else if c < 0 then inf else nan
  | nan => nan

/-- IEEE subtraction of a `FloatVal` from a finite real `a`:
`a − (−inf) = +inf`, `a − (+inf) = −inf`, `a − nan = nan`. -/
def rsub (a : ℝ) : FloatVal → FloatVal
  | fin v => fin (a - v)
  | inf => ninf
  | ninf => inf
  | nan => nan

end FloatVal

/-- Harmony evaluator `HarmonyFunctional` from `harmony.py`, holding the coupling `c_h`. -/
structure HarmonyFunctional where
  c_h : ℝ

/-- Harmony functional `HarmonyFunctional.compute_harmony`:
`Tr(L²)` as the sum of squared entries, minus `c_h` times the
log-pseudo-determinant `Σ log|λᵢ|` over the eigenvalues with `|λᵢ| > 1e-10`,
which is `-inf` (hence a `FloatVal` result) when every eigenvalue is a zero
mode.  `eigvals` stands for the output of the external eigensolver
`np.linalg.eigvalsh(laplacian)` (numpy library code, not part of this
repository), passed in explicitly. -/
def HarmonyFunctional.compute_harmony (h : HarmonyFunctional)
    (laplacian : List (List ℝ)) (eigvals : List ℝ) : FloatVal :=
  let tr_l2 : ℝ := (laplacian.map (fun row => (row.map (fun v => v ^ 2)).sum)).sum
  let non_zero_eigs := eigvals.filter (fun e => 1e-10 < |e|)
  let log_det : FloatVal :=
    if non_zero_eigs = [] then FloatVal.ninf
    else FloatVal.fin ((non_zero_eigs.map (fun e => Real.log |e|)).sum)
  FloatVal.rsub tr_l2 (FloatVal.smul h.c_h log_det)

/-- Cancellation check `SymplecticCancellation.verify_cancellation` from `cancellation.py`.
The random draws (`np.random.uniform` phases and `np.random.choice` signs)
are modelled as explicit input lists of length `num_samples`; for
`genus == 0` the source returns `False` before any draw, so the result
cannot depend on them. -/
def verify_cancellation (genus : ℤ) (num_samples : ℕ)
    (phases signs : List ℝ) : Bool :=
  if genus = 0 then false
  else
    let contributions :=
      (signs.zip phases).map
        (fun sp => (sp.1 : ℂ) * Complex.exp (Complex.I * (sp.2 : ℂ)))
    let total_amplitude := contributions.sum
    let normalized_amplitude := Complex.abs total_amplitude / (num_samples : ℝ)
    let threshold := 2 / Real.sqrt (num_samples : ℝ)
    decide (normalized_amplitude < threshold)

/-! ### Spec-side formulas

The following definitions transcribe the spec's closed-form descriptions of
the action components (spec §4.4); the refinement theorems below compare
them with the source-derived definitions above. -/

/-- Spec formula for the 4-point kernel:
`exp(i·(φ₁+φ₂+φ₃−φ₄)) · exp(−γ·Σ_{pairs i<j of the 4} QNCD(gᵢ,gⱼ))`,
the sum running over all 6 unordered pairs among the four arguments. -/
def kernel_spec (act : SymplecticAction) (g1 g2 g3 g4 : GInfElement) : ℂ :=
  let gs : List GInfElement := [g1, g2, g3, g4]
  let pair_sum : ℝ :=
    ∑ i ∈ Finset.range 4, ∑ j ∈ Finset.range 4,
      if i < j then
        compute_qncd (gs.getD i defaultG).su2 (gs.getD j defaultG).su2
      else 0
  Complex.exp (Complex.I * ((g1.phase + g2.phase + g3.phase - g4.phase : ℝ) : ℂ)) *
    ((Real.exp (-(act.gamma_coupling * pair_sum)) : ℝ) : ℂ)

/-- Spec formula for the kinetic term with mass `m = 1`:
`Σᵢ ‖φᵢ‖² + Σᵢⱼ Lᵢⱼ · (φ̄ᵢ·φⱼ).w` over the SU(2) parts. -/
def kinetic_spec (field : List GInfElement) (L : ℕ → ℕ → ℝ) : ℝ :=
  (∑ i ∈ Finset.range field.length, (field.getD i defaultG).su2.norm_sq) +
    ∑ i ∈ Finset.range field.length, ∑ j ∈ Finset.range field.length,
      L i j *
        (((field.getD i defaultG).su2.conjugate).mul
          (field.getD j defaultG).su2).w

/-- Spec formula for the interaction term: `λ · Σᵢ ‖φᵢ.su2‖⁴`. -/
def interaction_spec (act : SymplecticAction) (field : List GInfElement) : ℝ :=
  act.lambda_coupling * (field.map (fun e => e.su2.norm_sq ^ 2)).sum

/-! ### Helper lemmas -/

namespace Quaternion

theorem norm_sq_nonneg (q : Quaternion) : 0 ≤ q.norm_sq := by
  unfold norm_sq; positivity

theorem norm_sq_eq_zero_iff (q : Quaternion) :
    q.norm_sq = 0 ↔ q = ⟨0, 0, 0, 0⟩ := by
  obtain ⟨w, x, y, z⟩ := q
  unfold norm_sq
  constructor
  · intro h
    have hw : w = 0 := by nlinarith [sq_nonneg w, sq_nonneg x, sq_nonneg y, sq_nonneg z]
    have hx : x = 0 := by nlinarith [sq_nonneg w, sq_nonneg x, sq_nonneg y, sq_nonneg z]
    have hy : y = 0 := by nlinarith [sq_nonneg w, sq_nonneg x, sq_nonneg y, sq_nonneg z]
    have hz : z = 0 := by nlinarith [sq_nonneg w, sq_nonneg x, sq_nonneg y, sq_nonneg z]
    simp_all
  · intro h
    simp_all

theorem norm_eq_zero_iff (q : Quaternion) : q.norm = 0 ↔ q.norm_sq = 0 := by
  unfold norm
  exact Real.sqrt_eq_zero q.norm_sq_nonneg

theorem norm_mul_self (q : Quaternion) : q.norm * q.norm = q.norm_sq :=
  Real.mul_self_sqrt q.norm_sq_nonneg

theorem normalize_eq_some (q : Quaternion) (h : q.norm_sq ≠ 0) :
    q.normalize = some ⟨q.w / q.norm, q.x / q.norm, q.y / q.norm, q.z / q.norm⟩ := by
  have hn : q.norm ≠ 0 := fun hc => h (q.norm_eq_zero_iff.mp hc)
  simp [normalize, hn]

theorem normalize_zero : (Quaternion.mk 0 0 0 0).normalize = none := by
  simp [normalize, norm, norm_sq]

end Quaternion

theorem npclip_nonneg (v : ℝ) : 0 ≤ npclip v 0 1 :=
  le_min (by norm_num) (le_max_left 0 v)

theorem compute_qncd_nonneg (q1 q2 : Quaternion) : 0 ≤ compute_qncd q1 q2 := by
  unfold compute_qncd
  cases q1.normalize <;> cases q2.normalize <;>
    first
      | exact npclip_nonneg _
      | norm_num

/-! ### Claim theorems -/

/-- C6: for genus = 0, `verify_cancellation` returns `False` for every sample
count, deterministically: the result does not depend on the random phase and
sign draws (modelled as the explicit `phases`/`signs` inputs), since the
source returns before sampling. -/
theorem C6_genus_zero_never_cancelled :
    ∀ (num_samples : ℕ) (phases signs : List ℝ),
      verify_cancellation 0 num_samples phases signs = false := by
  intro n ps ss
  simp [verify_cancellation]

/-- C9: `update_phase dt` sets the phase to `(φ + ω·dt) mod 2π` and changes
nothing else: the SU(2) quaternion `state.su2`, the node `id` and the
`frequency` are unchanged. -/
theorem C9_update_phase_only_phase :
    ∀ (n : ResonantNode) (dt : ℝ),
      (n.update_phase dt).state.phase
          = pymod (n.state.phase + n.frequency * dt) (2 * Real.pi) ∧
        (n.update_phase dt).state.su2 = n.state.su2 ∧
        (n.update_phase dt).id = n.id ∧
        (n.update_phase dt).frequency = n.frequency := by
  intro n dt
  exact ⟨rfl, rfl, rfl, rfl⟩

/-- C10: `compute_interaction_term` does not depend on its adjacency-matrix
argument, and consequently `compute_total_action` equals kinetic plus
interaction for an arbitrary adjacency, so its value is unaffected by the
all-zeros placeholder it passes. -/
theorem C10_interaction_ignores_adjacency :
    (∀ (act : SymplecticAction) (field : List GInfElement) (A A' : ℕ → ℕ → ℝ),
        act.compute_interaction_term field A
          = act.compute_interaction_term field A') ∧
      ∀ (act : SymplecticAction) (field : List GInfElement) (L A : ℕ → ℕ → ℝ),
        act.compute_total_action field L
          = act.compute_kinetic_term field L
              + act.compute_interaction_term field A :=
  ⟨fun _ _ _ _ => rfl, fun _ _ _ _ => rfl⟩

/-- C8: when at least one argument is the zero quaternion, `compute_qncd`
returns exactly `1.0`; the `ZeroDivisionError` raised by
`Quaternion.normalize` on the zero quaternion (embedded as `none`) is caught
and does not escape. -/
theorem C8_qncd_zero_quaternion_guard :
    (Quaternion.mk 0 0 0 0).normalize = none ∧
      ∀ q1 q2 : Quaternion,
        q1 = Quaternion.mk 0 0 0 0 ∨ q2 = Quaternion.mk 0 0 0 0 →
          compute_qncd q1 q2 = 1 := by
  refine ⟨Quaternion.normalize_zero, ?_⟩
  intro q1 q2 h
  rcases h with rfl | rfl
  · unfold compute_qncd
    rw [Quaternion.normalize_zero]
  · unfold compute_qncd
    rw [Quaternion.normalize_zero]
    cases q1.normalize <;> rfl

/-- Witness for C8 at the concrete pair (zero quaternion, identity
quaternion). -/
theorem C8_witness :
    (Quaternion.mk 0 0 0 0 = Quaternion.mk 0 0 0 0 ∨
        Quaternion.mk 1 0 0 0 = Quaternion.mk 0 0 0 0) ∧
      compute_qncd (Quaternion.mk 0 0 0 0) (Quaternion.mk 1 0 0 0) = 1 :=
  ⟨Or.inl rfl, C8_qncd_zero_quaternion_guard.2 _ _ (Or.inl rfl)⟩

theorem ite_ne_zero_mul (a p : ℝ) : (if a ≠ 0 then a * p else 0) = a * p := by
  by_cases h : a = 0
  · simp [h]
  · simp [h]

theorem foldl_add_eq_sum (f : GInfElement → ℝ) (l : List GInfElement) (a : ℝ) :
    l.foldl (fun acc e => acc + f e) a = a + (l.map f).sum := by
  induction l generalizing a with
  | nil => simp
  | cons e t ih => simp [ih, add_assoc]

/-- C3: `compute_kinetic_term` returns `Σᵢ ‖φᵢ‖² + Σᵢⱼ Lᵢⱼ·(φ̄ᵢ·φⱼ).w` with
mass `m = 1`, over the SU(2) parts only; on two unit-norm elements with `L`
the 2×2 identity it equals exactly `4`. -/
theorem C3_kinetic_term :
    (∀ (act : SymplecticAction) (field : List GInfElement) (L : ℕ → ℕ → ℝ),
        act.compute_kinetic_term field L = kinetic_spec field L) ∧
      (SymplecticAction.mk 52.638 105.276).compute_kinetic_term
          [⟨⟨1, 0, 0, 0⟩, 0⟩, ⟨⟨0, 1, 0, 0⟩, 0⟩]
          (fun i j => if i = j then 1 else 0) = 4 := by
  constructor
  · intro act field L
    simp only [SymplecticAction.compute_kinetic_term, kinetic_spec, one_mul]
    rw [Finset.sum_add_distrib]
    congr 1
    refine Finset.sum_congr rfl fun i _ => Finset.sum_congr rfl fun j _ => ?_
    exact ite_ne_zero_mul _ _
  · norm_num [SymplecticAction.compute_kinetic_term, Finset.sum_range_succ,
      Quaternion.norm_sq, Quaternion.conjugate, Quaternion.mul]

/-- C4: `compute_interaction_term` returns `λ · Σᵢ ‖φᵢ.su2‖⁴` using only the
SU(2) norm of each element (the U(1) phases do not appear); with `λ = 1` on
four unit-norm field elements it equals exactly `4`. -/
theorem C4_interaction_term :
    (∀ (act : SymplecticAction) (field : List GInfElement) (adj : ℕ → ℕ → ℝ),
        act.compute_interaction_term field adj = interaction_spec act field) ∧
      (SymplecticAction.mk 1 105.276).compute_interaction_term
          [⟨⟨1, 0, 0, 0⟩, 0⟩, ⟨⟨0, 1, 0, 0⟩, 0.5⟩, ⟨⟨0, 0, 1, 0⟩, 1⟩,
            ⟨⟨0, 0, 0, 1⟩, 2⟩] (fun _ _ => 0) = 4 := by
  constructor
  · intro act field adj
    simp only [SymplecticAction.compute_interaction_term, interaction_spec]
    rw [foldl_add_eq_sum, zero_add]
    congr 1
    refine congrArg List.sum (List.map_congr_left fun e _ => ?_)
    rw [pow_two]
  · norm_num [SymplecticAction.compute_interaction_term, Quaternion.norm_sq]

namespace Quaternion

theorem neg_w (q : Quaternion) : q.neg.w = -q.w := rfl
theorem neg_x (q : Quaternion) : q.neg.x = -q.x := rfl
theorem neg_y (q : Quaternion) : q.neg.y = -q.y := rfl
theorem neg_z (q : Quaternion) : q.neg.z = -q.z := rfl

theorem norm_sq_neg (q : Quaternion) : q.neg.norm_sq = q.norm_sq := by
  unfold neg norm_sq
  ring

theorem norm_neg (q : Quaternion) : q.neg.norm = q.norm := by
  unfold norm
  rw [norm_sq_neg]

theorem dot_self_eq_norm_sq (q : Quaternion) : q.dot q = q.norm_sq := by
  unfold dot norm_sq
  ring

theorem dot_neg_self (q : Quaternion) : q.dot q.neg = -q.norm_sq := by
  unfold dot neg norm_sq
  ring

theorem dot_div (q1 q2 : Quaternion) (a b : ℝ) :
    Quaternion.dot ⟨q1.w / a, q1.x / a, q1.y / a, q1.z / a⟩
        ⟨q2.w / b, q2.x / b, q2.y / b, q2.z / b⟩
      = q1.dot q2 / (a * b) := by
  unfold dot
  rw [div_mul_div_comm, div_mul_div_comm, div_mul_div_comm, div_mul_div_comm,
    div_add_div_same, div_add_div_same, div_add_div_same]

end Quaternion

theorem compute_qncd_eq_of_normalized (q1 q2 u1 u2 : Quaternion)
    (h1 : q1.normalize = some u1) (h2 : q2.normalize = some u2) :
    compute_qncd q1 q2 = npclip (1 - (Quaternion.dot u1 u2) ^ 2) 0 1 := by
  unfold compute_qncd
  rw [h1, h2]

theorem compute_qncd_self (q : Quaternion) (h : q.norm_sq ≠ 0) :
    compute_qncd q q = 0 := by
  rw [compute_qncd_eq_of_normalized q q _ _ (q.normalize_eq_some h)
    (q.normalize_eq_some h), Quaternion.dot_div, Quaternion.norm_mul_self,
    Quaternion.dot_self_eq_norm_sq, div_self h]
  norm_num [npclip]

theorem compute_qncd_neg_self (q : Quaternion) (h : q.norm_sq ≠ 0) :
    compute_qncd q q.neg = 0 := by
  have hne : q.neg.norm_sq ≠ 0 := by rw [Quaternion.norm_sq_neg]; exact h
  rw [compute_qncd_eq_of_normalized q q.neg _ _ (q.normalize_eq_some h)
    (q.neg.normalize_eq_some hne), Quaternion.norm_neg, Quaternion.dot_div,
    Quaternion.norm_mul_self, Quaternion.dot_neg_self, neg_div, div_self h]
  norm_num [npclip]

theorem compute_qncd_orthogonal (q1 q2 : Quaternion) (h1 : q1.norm = 1)
    (h2 : q2.norm = 1) (hd : q1.dot q2 = 0) : compute_qncd q1 q2 = 1 := by
  have hs1 : q1.norm_sq ≠ 0 := by rw [← q1.norm_mul_self, h1]; norm_num
  have hs2 : q2.norm_sq ≠ 0 := by rw [← q2.norm_mul_self, h2]; norm_num
  rw [compute_qncd_eq_of_normalized q1 q2 _ _ (q1.normalize_eq_some hs1)
    (q2.normalize_eq_some hs2), Quaternion.dot_div, hd]
  norm_num [npclip]

/-- C7: `compute_qncd q q = 0` and `compute_qncd q (−q) = 0` for every
nonzero quaternion `q` (global-sign equivalence), and `compute_qncd` of two
unit quaternions with Euclidean-orthogonal 4-vectors is exactly `1.0`. -/
theorem C7_qncd_metric_properties :
    (∀ q : Quaternion, q ≠ Quaternion.mk 0 0 0 0 →
        compute_qncd q q = 0 ∧ compute_qncd q q.neg = 0) ∧
      ∀ q1 q2 : Quaternion, q1.norm = 1 → q2.norm = 1 →
        q1.dot q2 = 0 → compute_qncd q1 q2 = 1 := by
  constructor
  · intro q hq
    have h : q.norm_sq ≠ 0 := fun hc => hq (q.norm_sq_eq_zero_iff.mp hc)
    exact ⟨compute_qncd_self q h, compute_qncd_neg_self q h⟩
  · exact fun q1 q2 h1 h2 hd => compute_qncd_orthogonal q1 q2 h1 h2 hd

/-- Witness for C7: the identity quaternion against itself, its antipode,
and the orthogonal unit quaternion `i`. -/
theorem C7_witness :
    compute_qncd ⟨1, 0, 0, 0⟩ ⟨1, 0, 0, 0⟩ = 0 ∧
      compute_qncd ⟨1, 0, 0, 0⟩ (Quaternion.neg ⟨1, 0, 0, 0⟩) = 0 ∧
      compute_qncd ⟨1, 0, 0, 0⟩ ⟨0, 1, 0, 0⟩ = 1 := by
  have h1 := C7_qncd_metric_properties.1 ⟨1, 0, 0, 0⟩ (by
    intro hc
    have hw := congrArg Quaternion.w hc
    norm_num at hw)
  refine ⟨h1.1, h1.2, C7_qncd_metric_properties.2 _ _ ?_ ?_ ?_⟩
  · norm_num [Quaternion.norm, Quaternion.norm_sq]
  · norm_num [Quaternion.norm, Quaternion.norm_sq]
  · norm_num [Quaternion.dot]

theorem kernel_pair_sum (g1 g2 g3 g4 : GInfElement) :
    (∑ i ∈ Finset.range 4, ∑ j ∈ Finset.range 4,
        if i < j then
          compute_qncd (([g1, g2, g3, g4].getD i defaultG)).su2
            (([g1, g2, g3, g4].getD j defaultG)).su2
        else 0)
      = compute_qncd g1.su2 g2.su2 + compute_qncd g1.su2 g3.su2 +
        compute_qncd g1.su2 g4.su2 + compute_qncd g2.su2 g3.su2 +
        compute_qncd g2.su2 g4.su2 + compute_qncd g3.su2 g4.su2 := by
  simp [Finset.sum_range_succ]
  ring

/-- C2: `evaluate_kernel` equals the spec formula
`exp(i·(φ₁+φ₂+φ₃−φ₄)) · exp(−γ·Σ_{pairs i<j} QNCD(gᵢ.su2, gⱼ.su2))` with the
sum over all 6 unordered pairs; and on four identical zero-phase unit-norm
elements with `γ = 0` it equals exactly `1 + 0i`. -/
theorem C2_kernel_formula :
    (∀ (act : SymplecticAction) (g1 g2 g3 g4 : GInfElement),
        act.evaluate_kernel g1 g2 g3 g4 = kernel_spec act g1 g2 g3 g4) ∧
      ∀ (lam : ℝ) (q : Quaternion), q.norm = 1 →
        (SymplecticAction.mk lam 0).evaluate_kernel ⟨q, 0⟩ ⟨q, 0⟩ ⟨q, 0⟩ ⟨q, 0⟩
          = 1 := by
  constructor
  · intro act g1 g2 g3 g4
    simp only [SymplecticAction.evaluate_kernel, kernel_spec]
    rw [kernel_pair_sum, neg_mul]
  · intro lam q _
    simp [SymplecticAction.evaluate_kernel]

/-- Witness for C2's unit-norm hypothesis at the identity quaternion. -/
theorem C2_witness :
    Quaternion.norm ⟨1, 0, 0, 0⟩ = 1 ∧
      (SymplecticAction.mk 52.638 0).evaluate_kernel
          ⟨⟨1, 0, 0, 0⟩, 0⟩ ⟨⟨1, 0, 0, 0⟩, 0⟩ ⟨⟨1, 0, 0, 0⟩, 0⟩
          ⟨⟨1, 0, 0, 0⟩, 0⟩ = 1 := by
  have hn : Quaternion.norm ⟨1, 0, 0, 0⟩ = 1 := by
    norm_num [Quaternion.norm, Quaternion.norm_sq]
  exact ⟨hn, C2_kernel_formula.2 52.638 _ hn⟩

/-- C1 (amended): with a nonnegative gamma coupling, the kernel magnitude is
at most 1: the phase factor has unit magnitude and the QNCD sum is
nonnegative, so the weight `exp(−γ·Σ)` is at most 1. -/
theorem C1_kernel_magnitude_le_one (act : SymplecticAction)
    (g1 g2 g3 g4 : GInfElement) (h : 0 ≤ act.gamma_coupling) :
    Complex.abs (act.evaluate_kernel g1 g2 g3 g4) ≤ 1 := by
  have hS : 0 ≤ compute_qncd g1.su2 g2.su2 + compute_qncd g1.su2 g3.su2 +
      compute_qncd g1.su2 g4.su2 + compute_qncd g2.su2 g3.su2 +
      compute_qncd g2.su2 g4.su2 + compute_qncd g3.su2 g4.su2 := by
    have a1 := compute_qncd_nonneg g1.su2 g2.su2
    have a2 := compute_qncd_nonneg g1.su2 g3.su2
    have a3 := compute_qncd_nonneg g1.su2 g4.su2
    have a4 := compute_qncd_nonneg g2.su2 g3.su2
    have a5 := compute_qncd_nonneg g2.su2 g4.su2
    have a6 := compute_qncd_nonneg g3.su2 g4.su2
    linarith
  simp only [SymplecticAction.evaluate_kernel]
  rw [map_mul, Complex.abs_exp, Complex.abs_ofReal]
  have hre : (Complex.I *
      ((g1.phase + g2.phase + g3.phase - g4.phase : ℝ) : ℂ)).re = 0 := by
    simp [Complex.mul_re]
  rw [hre, Real.exp_zero, one_mul, abs_of_pos (Real.exp_pos _)]
  refine Real.exp_le_one_iff.mpr ?_
  have := mul_nonneg h hS
  linarith

/-- Witness for C1's amended hypothesis at the default couplings. -/
theorem C1_witness :
    0 ≤ (SymplecticAction.mk 52.638 105.276).gamma_coupling ∧
      Complex.abs ((SymplecticAction.mk 52.638 105.276).evaluate_kernel
        ⟨⟨1, 0, 0, 0⟩, 0⟩ ⟨⟨1, 0, 0, 0⟩, 0⟩ ⟨⟨1, 0, 0, 0⟩, 0⟩
        ⟨⟨1, 0, 0, 0⟩, 0⟩) ≤ 1 :=
  ⟨by norm_num, C1_kernel_magnitude_le_one _ _ _ _ _ (by norm_num)⟩

/-- Counterexample to C1 as stated: with gamma coupling `−1` (the
constructor accepts any value) and four pairwise-orthogonal unit elements,
the six QNCD distances are all 1, so the kernel magnitude is `exp 6 > 1`. -/
theorem C1_counterexample :
    1 < Complex.abs ((SymplecticAction.mk 52.638 (-1)).evaluate_kernel
      ⟨⟨1, 0, 0, 0⟩, 0⟩ ⟨⟨0, 1, 0, 0⟩, 0⟩ ⟨⟨0, 0, 1, 0⟩, 0⟩
      ⟨⟨0, 0, 0, 1⟩, 0⟩) := by
  have n1 : Quaternion.norm ⟨1, 0, 0, 0⟩ = 1 := by
    norm_num [Quaternion.norm, Quaternion.norm_sq]
  have n2 : Quaternion.norm ⟨0, 1, 0, 0⟩ = 1 := by
    norm_num [Quaternion.norm, Quaternion.norm_sq]
  have n3 : Quaternion.norm ⟨0, 0, 1, 0⟩ = 1 := by
    norm_num [Quaternion.norm, Quaternion.norm_sq]
  have n4 : Quaternion.norm ⟨0, 0, 0, 1⟩ = 1 := by
    norm_num [Quaternion.norm, Quaternion.norm_sq]
  have d12 := compute_qncd_orthogonal _ _ n1 n2 (by norm_num [Quaternion.dot])
  have d13 := compute_qncd_orthogonal _ _ n1 n3 (by norm_num [Quaternion.dot])
  have d14 := compute_qncd_orthogonal _ _ n1 n4 (by norm_num [Quaternion.dot])
  have d23 := compute_qncd_orthogonal _ _ n2 n3 (by norm_num [Quaternion.dot])
  have d24 := compute_qncd_orthogonal _ _ n2 n4 (by norm_num [Quaternion.dot])
  have d34 := compute_qncd_orthogonal _ _ n3 n4 (by norm_num [Quaternion.dot])
  simp only [SymplecticAction.evaluate_kernel]
  rw [map_mul, Complex.abs_exp, Complex.abs_ofReal]
  have hre : (Complex.I * (((0 : ℝ) + 0 + 0 - 0 : ℝ) : ℂ)).re = 0 := by
    simp [Complex.mul_re]
  rw [hre, Real.exp_zero, one_mul, abs_of_pos (Real.exp_pos _)]
  rw [d12, d13, d14, d23, d24, d34]
  rw [show (-(-1 : ℝ)) * ((1 : ℝ) + 1 + 1 + 1 + 1 + 1) = 6 by norm_num]
  exact Real.one_lt_exp_iff.mpr (by norm_num)

/-- C5 (amended): for a positive coupling `c_h`, `compute_harmony` on a
matrix all of whose eigenvalues have absolute value at most `1e-10` filters
out every eigenvalue, treats the log-pseudo-determinant as `−∞`, and returns
`+∞`. -/
theorem C5_harmony_degenerate_infinite (h : HarmonyFunctional)
    (laplacian : List (List ℝ)) (eigvals : List ℝ) (hc : 0 < h.c_h)
    (he : ∀ e ∈ eigvals, |e| ≤ 1e-10) :
    h.compute_harmony laplacian eigvals = FloatVal.inf := by
  have hfilter : eigvals.filter (fun e => 1e-10 < |e|) = [] := by
    rw [List.filter_eq_nil_iff]
    intro a ha
    simp only [decide_eq_true_eq]
    exact not_lt.mpr (he a ha)
  simp [HarmonyFunctional.compute_harmony, hfilter, FloatVal.smul,
    FloatVal.rsub, hc]

/-- Witness for C5's amended hypotheses: `c_h = 1` on the 2×2 zero matrix
(whose `eigvalsh` spectrum is `[0, 0]`). -/
theorem C5_witness :
    0 < (HarmonyFunctional.mk 1).c_h ∧
      (∀ e ∈ ([0, 0] : List ℝ), |e| ≤ 1e-10) ∧
      (HarmonyFunctional.mk 1).compute_harmony [[0, 0], [0, 0]] [0, 0]
        = FloatVal.inf := by
  have he : ∀ e ∈ ([0, 0] : List ℝ), |e| ≤ 1e-10 := by
    intro e hmem
    rcases List.mem_cons.mp hmem with rfl | hmem2
    · norm_num
    · rcases List.mem_cons.mp hmem2 with rfl | hmem3
      · norm_num
      · exact absurd hmem3 (List.not_mem_nil e)
  exact ⟨by norm_num, he,
    C5_harmony_degenerate_infinite _ _ _ (by norm_num) he⟩

/-- Counterexample to C5 as stated: the constructor accepts `c_h = 0`, and
then the source computes `tr_l2 - 0 * (-inf)`, which is IEEE `nan`, not
`+inf` — on the 2×2 zero matrix the result is `nan`. -/
theorem C5_counterexample :
    (HarmonyFunctional.mk 0).compute_harmony [[0, 0], [0, 0]] [0, 0]
      ≠ FloatVal.inf := by
  have hfilter : ([0, 0] : List ℝ).filter (fun e => 1e-10 < |e|) = [] := by
    rw [List.filter_eq_nil_iff]
    intro a ha
    simp only [decide_eq_true_eq]
    rcases List.mem_cons.mp ha with rfl | ha2
    · norm_num
    · rcases List.mem_cons.mp ha2 with rfl | ha3
      · norm_num
      · exact absurd ha3 (List.not_mem_nil a)
  have hval : (HarmonyFunctional.mk 0).compute_harmony [[0, 0], [0, 0]] [0, 0]
      = FloatVal.nan := by
    simp [HarmonyFunctional.compute_harmony, hfilter, FloatVal.smul,
      FloatVal.rsub]
  rw [hval]
  intro hc
  exact FloatVal.noConfusion hc

end

end IRH
